import Mathlib

/-!
Verification of the symmetric eigendecomposition module
(`src/src/linalg/symmetric_eigen.rs`): the symmetric tridiagonal QR
iteration with implicit Wilkinson shifts, its deflation logic
(`delimit_subproblem`), the 2x2 closed-form base case, the driver loop of
`try_new`, `wilkinson_shift`, and `recompose`.

The scalar type `N: Real` of the Rust code is embedded as the exact reals
`ℝ`; `diag`, `off_diag` and the eigenvector accumulator `q` are embedded as
lists; the driver's `while` loop is unfolded with explicit fuel (the fuel
only bounds the modelled recursion, it is not part of the program).

Routines the module calls but that live outside this file's source
(`givens::cancel_y`, `Vector2::try_normalize`, `Matrix2::eigenvalues`,
`UnitComplex` column rotation) are modelled from the specification; each
such definition is marked `Modelled from the spec:` in its doc comment.
-/

noncomputable section

/-- Embedding of `Real::signum` for exact reals: the Rust (IEEE `f64`)
`signum` returns `1.0` on `+0.0`, so the exact-real embedding maps `0` to
`1` (there is no negative zero in `ℝ`). -/
def signum (x : ℝ) : ℝ := if x < 0 then -1 else 1

/-- Embedding of `wilkinson_shift` (lines 227-237): the eigenvalue of the
2x2 symmetric matrix `[[tmm, tmn], [tmn, tnn]]` closest to `tnn`. -/
def wilkinson_shift (tmm tnn tmn : ℝ) : ℝ :=
  let sq_tmn := tmn * tmn
  if sq_tmn ≠ 0 then
    let d := (tmm - tnn) * (1 / 2)
    tnn - sq_tmn / (d + signum d * Real.sqrt (d * d + sq_tmn))
  else
    tnn

/-- C6: for every `tmm` and `tnn`, `wilkinson_shift tmm tnn 0` returns
`tnn` exactly: with a zero off-diagonal entry the squared entry is zero,
so the early-exit branch returns `tnn` with no arithmetic performed. -/
theorem wilkinson_shift_zero_off_diagonal (tmm tnn : ℝ) :
    wilkinson_shift tmm tnn 0 = tnn := by
  simp [wilkinson_shift]

/-- C7: when `tmn * tmn` is nonzero, `wilkinson_shift` computes
`tnn - tmn² / (d + signum d * sqrt (d² + tmn²))` with `d = (tmm - tnn)/2`,
and that denominator is never zero — also when `d = 0`, where `signum`
yields `+1` — so the division is always well-defined. -/
theorem wilkinson_shift_denominator_nonzero (tmm tnn tmn : ℝ)
    (h : tmn * tmn ≠ 0) :
    wilkinson_shift tmm tnn tmn =
      tnn - tmn * tmn /
        ((tmm - tnn) * (1 / 2) +
          signum ((tmm - tnn) * (1 / 2)) *
            Real.sqrt ((tmm - tnn) * (1 / 2) * ((tmm - tnn) * (1 / 2)) + tmn * tmn)) ∧
    (tmm - tnn) * (1 / 2) +
        signum ((tmm - tnn) * (1 / 2)) *
          Real.sqrt ((tmm - tnn) * (1 / 2) * ((tmm - tnn) * (1 / 2)) + tmn * tmn) ≠ 0 := by
  have hsq : 0 < tmn * tmn := lt_of_le_of_ne (mul_self_nonneg tmn) (Ne.symm h)
  set d : ℝ := (tmm - tnn) * (1 / 2) with hd
  have hsum : 0 < d * d + tmn * tmn :=
    add_pos_of_nonneg_of_pos (mul_self_nonneg d) hsq
  have hsqrt : 0 < Real.sqrt (d * d + tmn * tmn) := Real.sqrt_pos.mpr hsum
  have hden : d + signum d * Real.sqrt (d * d + tmn * tmn) ≠ 0 := by
    rcases lt_or_le d 0 with hneg | hpos
    · have hs : signum d = -1 := if_pos hneg
      rw [hs]
      have : d + -1 * Real.sqrt (d * d + tmn * tmn) < 0 := by nlinarith
      exact ne_of_lt this
    · have hs : signum d = 1 := if_neg (not_lt.mpr hpos)
      rw [hs]
      have : 0 < d + 1 * Real.sqrt (d * d + tmn * tmn) := by nlinarith
      exact ne_of_gt this
  refine ⟨?_, hden⟩
  simp only [wilkinson_shift, if_pos h]

/-- Witness for C7 at `tmm = 0`, `tnn = 0`, `tmn = 1`. -/
theorem wilkinson_shift_denominator_nonzero_witness :
    (1 : ℝ) * 1 ≠ 0 ∧
    (wilkinson_shift 0 0 1 =
      0 - 1 * 1 /
        ((0 - 0) * (1 / 2) +
          signum ((0 - 0) * (1 / 2)) *
            Real.sqrt ((0 - 0) * (1 / 2) * ((0 - 0) * (1 / 2)) + 1 * 1)) ∧
    (0 - 0) * (1 / 2) +
        signum ((0 - 0) * (1 / 2)) *
          Real.sqrt ((0 - 0) * (1 / 2) * ((0 - 0) * (1 / 2)) + 1 * 1) ≠ 0) :=
  ⟨by norm_num, wilkinson_shift_denominator_nonzero 0 0 1 (by norm_num)⟩

/-- Embedding of the first `while` loop of `delimit_subproblem`
(lines 175-185): walk `n` downward from `end` and stop at the first `n`
whose preceding off-diagonal entry is non-negligible; `0` when the walk
exhausts. Out-of-range list reads are `0`, matching the fact that the
Rust code never indexes out of range there. -/
def delimitN (diag off : List ℝ) (eps : ℝ) : ℕ → ℕ
  | 0 => 0
  | (k + 1) =>
    if |off.getD k 0| > eps * (|diag.getD (k + 1) 0| + |diag.getD k 0|) then k + 1
    else delimitN diag off eps k

/-- Embedding of the second `while` loop of `delimit_subproblem`
(lines 191-202): walk `new_start` downward from `n - 1`; stop (returning
the current `new_start`) at the first one whose preceding off-diagonal
entry is zero or negligible; `0` when the walk exhausts. The zeroing side
effect performed at the break is applied by the caller. -/
def delimitStart (diag off : List ℝ) (eps : ℝ) : ℕ → ℕ
  | 0 => 0
  | (s + 1) =>
    if off.getD s 0 = 0 ∨ |off.getD s 0| ≤ eps * (|diag.getD (s + 1) 0| + |diag.getD s 0|)
    then s + 1
    else delimitStart diag off eps s

/-- Embedding of `delimit_subproblem` (lines 167-205). It returns
`(start, n, off')` where `off'` is the off-diagonal after the single
possible mutation (`off_diag[new_start - 1] = 0` at the second loop's
break); `diag` is read-only in the source (`&VectorN`), so it is not
returned. -/
def delimit_subproblem (diag off : List ℝ) (e : ℕ) (eps : ℝ) : ℕ × ℕ × List ℝ :=
  let n := delimitN diag off eps e
  if n = 0 then (0, 0, off)
  else
    let s := delimitStart diag off eps (n - 1)
    if s = 0 then (0, n, off) else (s, n, off.set (s - 1) 0)

theorem delimitN_le (diag off : List ℝ) (eps : ℝ) : ∀ e, delimitN diag off eps e ≤ e := by
  intro e
  induction e with
  | zero => simp [delimitN]
  | succ k ih =>
    rw [delimitN]
    split
    · exact Nat.le_refl _
    · exact Nat.le_succ_of_le ih

theorem delimitStart_le (diag off : List ℝ) (eps : ℝ) :
    ∀ s0, delimitStart diag off eps s0 ≤ s0 := by
  intro s0
  induction s0 with
  | zero => simp [delimitStart]
  | succ s ih =>
    rw [delimitStart]
    split
    · exact Nat.le_refl _
    · exact Nat.le_succ_of_le ih

theorem delimit_subproblem_trailing_le (diag off : List ℝ) (e : ℕ) (eps : ℝ) :
    (delimit_subproblem diag off e eps).2.1 ≤ e := by
  unfold delimit_subproblem
  by_cases h : delimitN diag off eps e = 0
  · simp [h]
  · simp only [if_neg h]
    by_cases hs : delimitStart diag off eps (delimitN diag off eps e - 1) = 0
    · simpa [hs] using delimitN_le diag off eps e
    · simpa [hs] using delimitN_le diag off eps e

/-- The break condition of the first loop of `delimit_subproblem` at index
`k` (`k ≥ 1`): the off-diagonal entry `k - 1` is non-negligible. -/
def offNonNegligible (diag off : List ℝ) (eps : ℝ) (k : ℕ) : Prop :=
  |off.getD (k - 1) 0| > eps * (|diag.getD k 0| + |diag.getD (k - 1) 0|)

/-- The break condition of the second loop of `delimit_subproblem` at index
`k` (`k ≥ 1`): the off-diagonal entry `k - 1` is zero or negligible. -/
def offNegligible (diag off : List ℝ) (eps : ℝ) (k : ℕ) : Prop :=
  off.getD (k - 1) 0 = 0 ∨
    |off.getD (k - 1) 0| ≤ eps * (|diag.getD k 0| + |diag.getD (k - 1) 0|)

theorem delimitN_spec (diag off : List ℝ) (eps : ℝ) : ∀ e,
    (delimitN diag off eps e = 0 ∧
      ∀ k, 1 ≤ k → k ≤ e → ¬ offNonNegligible diag off eps k) ∨
    (delimitN diag off eps e ≠ 0 ∧
      offNonNegligible diag off eps (delimitN diag off eps e) ∧
      delimitN diag off eps e ≤ e ∧
      ∀ k, delimitN diag off eps e < k → k ≤ e → ¬ offNonNegligible diag off eps k) := by
  intro e
  induction e with
  | zero =>
    left
    refine ⟨rfl, ?_⟩
    intro k hk1 hk2 _
    omega
  | succ k ih =>
    by_cases h : offNonNegligible diag off eps (k + 1)
    · have hc : |off.getD k 0| > eps * (|diag.getD (k + 1) 0| + |diag.getD k 0|) := by
        simpa [offNonNegligible] using h
      have hres : delimitN diag off eps (k + 1) = k + 1 := by
        rw [delimitN, if_pos hc]
      right
      rw [hres]
      exact ⟨Nat.succ_ne_zero k, h, Nat.le_refl _, fun j hj1 hj2 _ => by omega⟩
    · have hc : ¬ (|off.getD k 0| > eps * (|diag.getD (k + 1) 0| + |diag.getD k 0|)) := by
        simpa [offNonNegligible] using h
      have hres : delimitN diag off eps (k + 1) = delimitN diag off eps k := by
        rw [delimitN, if_neg hc]
      rcases ih with ⟨h0, hall⟩ | ⟨hne, hP, hle, hmax⟩
      · left
        refine ⟨hres.trans h0, ?_⟩
        intro j hj1 hj2
        by_cases hj : j = k + 1
        · exact hj ▸ h
        · exact hall j hj1 (by omega)
      · right
        rw [hres]
        refine ⟨hne, hP, hle.trans (Nat.le_succ k), ?_⟩
        intro j hj1 hj2
        by_cases hj : j = k + 1
        · exact hj ▸ h
        · exact hmax j hj1 (by omega)

theorem delimitStart_spec (diag off : List ℝ) (eps : ℝ) : ∀ s0,
    (delimitStart diag off eps s0 = 0 ∧
      ∀ k, 1 ≤ k → k ≤ s0 → ¬ offNegligible diag off eps k) ∨
    (delimitStart diag off eps s0 ≠ 0 ∧
      offNegligible diag off eps (delimitStart diag off eps s0) ∧
      delimitStart diag off eps s0 ≤ s0 ∧
      ∀ k, delimitStart diag off eps s0 < k → k ≤ s0 → ¬ offNegligible diag off eps k) := by
  intro s0
  induction s0 with
  | zero =>
    left
    refine ⟨rfl, ?_⟩
    intro k hk1 hk2 _
    omega
  | succ s ih =>
    by_cases h : offNegligible diag off eps (s + 1)
    · have hc : off.getD s 0 = 0 ∨
          |off.getD s 0| ≤ eps * (|diag.getD (s + 1) 0| + |diag.getD s 0|) := by
        simpa [offNegligible] using h
      have hres : delimitStart diag off eps (s + 1) = s + 1 := by
        rw [delimitStart, if_pos hc]
      right
      rw [hres]
      exact ⟨Nat.succ_ne_zero s, h, Nat.le_refl _, fun j hj1 hj2 _ => by omega⟩
    · have hc : ¬ (off.getD s 0 = 0 ∨
          |off.getD s 0| ≤ eps * (|diag.getD (s + 1) 0| + |diag.getD s 0|)) := by
        simpa [offNegligible] using h
      have hres : delimitStart diag off eps (s + 1) = delimitStart diag off eps s := by
        rw [delimitStart, if_neg hc]
      rcases ih with ⟨h0, hall⟩ | ⟨hne, hQ, hle, hmax⟩
      · left
        refine ⟨hres.trans h0, ?_⟩
        intro j hj1 hj2
        by_cases hj : j = s + 1
        · exact hj ▸ h
        · exact hall j hj1 (by omega)
      · right
        rw [hres]
        refine ⟨hne, hQ, hle.trans (Nat.le_succ s), ?_⟩
        intro j hj1 hj2
        by_cases hj : j = s + 1
        · exact hj ▸ h
        · exact hmax j hj1 (by omega)

theorem getD_set_ne (l : List ℝ) (i j : ℕ) (a d : ℝ) (h : i ≠ j) :
    (l.set i a).getD j d = l.getD j d := by
  simp [List.getD_eq_getElem?_getD, List.getElem?_set_ne h]

/-- C3: full characterization of `delimit_subproblem diag off e eps`,
written `r = (start, n, off')`. (i) If no index in `[1, e]` is
non-negligible, the result is `(0, 0)` with no mutation. (ii) If the
returned trailing bound `n` is nonzero it is non-negligible and is the
largest such index `≤ e`; (iii) such an index exists exactly when `n ≠ 0`.
(iv) When `start = 0` the off-diagonal is unmutated and no index in
`[1, n - 1]` is negligible. (v) When `start ≠ 0`, index `start` is the
largest negligible index `≤ n - 1`, `off'` is exactly `off` with entry
`start - 1` set to zero, and every other entry of `off'` agrees with
`off`; `diag` is behind an immutable borrow, hence never mutated. -/
theorem delimit_subproblem_spec (diag off : List ℝ) (e : ℕ) (eps : ℝ) :
    ((∀ k, 1 ≤ k → k ≤ e → ¬ offNonNegligible diag off eps k) →
      delimit_subproblem diag off e eps = (0, 0, off)) ∧
    ((delimit_subproblem diag off e eps).2.1 ≠ 0 →
      offNonNegligible diag off eps (delimit_subproblem diag off e eps).2.1 ∧
      (delimit_subproblem diag off e eps).2.1 ≤ e ∧
      ∀ k, (delimit_subproblem diag off e eps).2.1 < k → k ≤ e →
        ¬ offNonNegligible diag off eps k) ∧
    ((∃ k, 1 ≤ k ∧ k ≤ e ∧ offNonNegligible diag off eps k) →
      (delimit_subproblem diag off e eps).2.1 ≠ 0) ∧
    ((delimit_subproblem diag off e eps).1 = 0 →
      (delimit_subproblem diag off e eps).2.2 = off ∧
      ∀ k, 1 ≤ k → k ≤ (delimit_subproblem diag off e eps).2.1 - 1 →
        ¬ offNegligible diag off eps k) ∧
    ((delimit_subproblem diag off e eps).1 ≠ 0 →
      offNegligible diag off eps (delimit_subproblem diag off e eps).1 ∧
      (delimit_subproblem diag off e eps).1 ≤ (delimit_subproblem diag off e eps).2.1 - 1 ∧
      (∀ k, (delimit_subproblem diag off e eps).1 < k →
        k ≤ (delimit_subproblem diag off e eps).2.1 - 1 →
        ¬ offNegligible diag off eps k) ∧
      (delimit_subproblem diag off e eps).2.2 =
        off.set ((delimit_subproblem diag off e eps).1 - 1) 0 ∧
      ∀ j, j ≠ (delimit_subproblem diag off e eps).1 - 1 →
        ((delimit_subproblem diag off e eps).2.2).getD j 0 = off.getD j 0) := by
  rcases delimitN_spec diag off eps e with ⟨hn0, hnall⟩ | ⟨hnne, hnP, hnle, hnmax⟩
  · have hr : delimit_subproblem diag off e eps = (0, 0, off) := by
      simp [delimit_subproblem, hn0]
    rw [hr]
    refine ⟨fun _ => rfl, fun h => absurd rfl h, ?_, ?_, fun h => absurd rfl h⟩
    · rintro ⟨k, hk1, hk2, hk⟩
      exact absurd hk (hnall k hk1 hk2)
    · exact fun _ => ⟨rfl, fun k hk1 hk2 _ => by simp at hk2; omega⟩
  · rcases delimitStart_spec diag off eps (delimitN diag off eps e - 1) with
      ⟨hs0, hsall⟩ | ⟨hsne, hsQ, hsle, hsmax⟩
    · have hr : delimit_subproblem diag off e eps = (0, delimitN diag off eps e, off) := by
        simp [delimit_subproblem, if_neg hnne, hs0]
      rw [hr]
      refine ⟨?_, fun _ => ⟨hnP, hnle, hnmax⟩, fun _ => hnne, fun _ => ⟨rfl, hsall⟩,
        fun h => absurd rfl h⟩
      intro hall
      exact absurd hnP (hall _ (Nat.one_le_iff_ne_zero.mpr hnne) hnle)
    · have hr : delimit_subproblem diag off e eps =
          (delimitStart diag off eps (delimitN diag off eps e - 1),
            delimitN diag off eps e,
            off.set (delimitStart diag off eps (delimitN diag off eps e - 1) - 1) 0) := by
        simp [delimit_subproblem, if_neg hnne, if_neg hsne]
      rw [hr]
      refine ⟨?_, fun _ => ⟨hnP, hnle, hnmax⟩, fun _ => hnne, fun h => absurd h hsne, ?_⟩
      · intro hall
        exact absurd hnP (hall _ (Nat.one_le_iff_ne_zero.mpr hnne) hnle)
      · intro _
        refine ⟨hsQ, hsle, hsmax, rfl, ?_⟩
        intro j hj
        exact getD_set_ne off _ j 0 0 (fun hh => hj hh.symm)

/-- Witness for C3: on `diag = [0, 0]`, `off = [0]`, `end = 1`, `eps = 0`
no trailing index is non-negligible, so the result is `(0, 0)` with the
off-diagonal unmutated. -/
theorem delimit_subproblem_spec_witness :
    (∀ k, 1 ≤ k → k ≤ 1 → ¬ offNonNegligible [(0 : ℝ), 0] [0] 0 k) ∧
    delimit_subproblem [(0 : ℝ), 0] [0] 1 0 = (0, 0, [0]) := by
  have hall : ∀ k, 1 ≤ k → k ≤ 1 → ¬ offNonNegligible [(0 : ℝ), 0] [0] 0 k := by
    intro k hk1 hk2
    have hk : k = 1 := by omega
    subst hk
    simp [offNonNegligible]
  exact ⟨hall, (delimit_subproblem_spec [(0 : ℝ), 0] [0] 1 0).1 hall⟩

/-- Modelled from the spec: `givens::cancel_y` (the external 2D rotation
primitive). Given a 2-vector it constructs the rotation `(cos, sin)` that
zeroes the vector's second component together with the vector's norm, and
yields nothing when the second component is already zero (degenerate
direction). -/
def cancelY (v : ℝ × ℝ) : Option ((ℝ × ℝ) × ℝ) :=
  if v.2 = 0 then none
  else
    let n := Real.sqrt (v.1 * v.1 + v.2 * v.2)
    some ((v.1 / n, -(v.2 / n)), n)

/-- Modelled from the spec: `Vector2::try_normalize` (external). Returns
the normalized vector when its norm exceeds the tolerance, nothing
otherwise. -/
def tryNormalize (v : ℝ × ℝ) (eps : ℝ) : Option (ℝ × ℝ) :=
  let n := Real.sqrt (v.1 * v.1 + v.2 * v.2)
  if n > eps then some (v.1 / n, v.2 / n) else none

/-- Modelled from the spec: the dense 2x2 eigenvalue routine
(`Matrix2::eigenvalues`, external), closed form via the characteristic
polynomial of `[[h00, h01], [h10, h11]]`: nothing when the discriminant is
negative, otherwise the two roots (unsorted, as produced). -/
def eigenvalues2 (h00 h10 h01 h11 : ℝ) : Option (ℝ × ℝ) :=
  let val := (h00 - h11) * (1 / 2)
  let discr := h10 * h01 + val * val
  if 0 ≤ discr then
    let sd := Real.sqrt discr
    let half_tra := (h00 + h11) * (1 / 2)
    some (half_tra + sd, half_tra - sd)
  else
    none

/-- Modelled from the spec: application of a rotation `(c, s)` to the pair
of eigenvector columns `i` and `i + 1` of `q` (the external
`rotate_rows` on a two-column view). -/
def rotateCols (c s : ℝ) (i : ℕ) (q : List (List ℝ)) : List (List ℝ) :=
  q.map fun row =>
    let a := row.getD i 0
    let b := row.getD (i + 1) 0
    (row.set i (c * a - s * b)).set (i + 1) (s * a + c * b)

/-- The mutable state threaded through one QR sweep: the diagonal, the
off-diagonal, the eigenvector accumulator and the current seed vector `v`. -/
structure SweepSt where
  diag : List ℝ
  off : List ℝ
  q : List (List ℝ)
  v : ℝ × ℝ

/-- Embedding of one iteration of the bulge-chasing `for` loop of `try_new`
(lines 88-122), at index `i` of the window `start .. n` (`n` is the
window's trailing bound `end`); `none` models the `break` taken when no
rotation can be constructed. The rotation applied to the eigenvector
columns is the inverse rotation `(cos, -sin)`, matching
`rot.inverse().rotate_rows(..)`. -/
def sweepBody (start n i : ℕ) (st : SweepSt) : Option SweepSt :=
  match cancelY st.v with
  | none => none
  | some (rot, norm) =>
    let off0 := if start < i then st.off.set (i - 1) norm else st.off
    let mii := st.diag.getD i 0
    let mjj := st.diag.getD (i + 1) 0
    let mij := off0.getD i 0
    let cc := rot.1 * rot.1
    let ss := rot.2 * rot.2
    let cs := rot.1 * rot.2
    let b := cs * 2 * mij
    let diag1 := (st.diag.set i (cc * mii + ss * mjj - b)).set (i + 1)
      (ss * mii + cc * mjj + b)
    let off1 := off0.set i (cs * (mii - mjj) + mij * (cc - ss))
    let next :=
      if i ≠ n - 1 then
        ((off1.getD i 0, -rot.2 * off1.getD (i + 1) 0),
          off1.set (i + 1) (off1.getD (i + 1) 0 * rot.1))
      else
        (st.v, off1)
    let q1 := rotateCols rot.1 (-rot.2) i st.q
    some { diag := diag1, off := next.2, q := q1, v := next.1 }

/-- The bulge-chasing `for` loop of `try_new` (lines 88-122): iterate
`sweepBody` for `i = start, start+1, ...` (`fuel` many indices, the driver
passes `n - start`), stopping early when it yields `none`. -/
def sweepGo (start n : ℕ) : ℕ → ℕ → SweepSt → SweepSt
  | 0, _, st => st
  | (fuel + 1), i, st =>
    match sweepBody start n i st with
    | none => st
    | some st1 => sweepGo start n fuel (i + 1) st1

/-- One full QR sweep over the window `start .. n`, seeded with `v`. -/
def qr_sweep (start n : ℕ) (st : SweepSt) : SweepSt :=
  sweepGo start n (n - start) start st

/-- The driver state of `try_new`'s `while` loop: the tridiagonal data,
the eigenvector accumulator and the active window `[start, endIdx]`
(the source's `start` and `end`; `end` is a reserved word in Lean). -/
structure LoopSt where
  diag : List ℝ
  off : List ℝ
  q : List (List ℝ)
  start : ℕ
  endIdx : ℕ

/-- Embedding of the dispatch body of `try_new`'s `while` loop
(lines 77-143): `subdim > 2` runs one QR sweep (with the Wilkinson shift
seed) followed by the trailing-entry deflation check; `subdim == 2` runs
the closed-form 2x2 solver (the `unwrap` on `eigenvalues()` is modelled
with a `getD` default; the discriminant of the symmetric block is
nonnegative, so the default is unreachable);
`subdim == 1` cannot occur inside the loop. -/
def dispatch (eps : ℝ) (st : LoopSt) : LoopSt :=
  let subdim := st.endIdx - st.start + 1
  if 2 < subdim then
    let m := st.endIdx - 1
    let n := st.endIdx
    let v : ℝ × ℝ :=
      (st.diag.getD st.start 0 -
        wilkinson_shift (st.diag.getD m 0) (st.diag.getD n 0) (st.off.getD m 0),
        st.off.getD st.start 0)
    let s := qr_sweep st.start n { diag := st.diag, off := st.off, q := st.q, v := v }
    let newEnd :=
      if |s.off.getD m 0| ≤ eps * (|s.diag.getD m 0| + |s.diag.getD n 0|)
      then st.endIdx - 1 else st.endIdx
    { diag := s.diag, off := s.off, q := s.q, start := st.start, endIdx := newEnd }
  else if subdim = 2 then
    let a := st.diag.getD st.start 0
    let b := st.off.getD st.start 0
    let c := st.diag.getD (st.start + 1) 0
    let eigvals := (eigenvalues2 a b b c).getD (0, 0)
    let basis : ℝ × ℝ := (eigvals.1 - c, b)
    let diag1 := (st.diag.set st.start eigvals.1).set (st.start + 1) eigvals.2
    let q1 :=
      match tryNormalize basis eps with
      | some u => rotateCols u.1 u.2 st.start st.q
      | none => st.q
    { diag := diag1, off := st.off, q := q1, start := st.start, endIdx := st.endIdx - 1 }
  else
    st

/-- One iteration of `try_new`'s `while` loop body minus the counter logic
(lines 77-149): dispatch, then re-delimit the subproblem. -/
def driverStep (eps : ℝ) (st : LoopSt) : LoopSt :=
  let st1 := dispatch eps st
  let sub := delimit_subproblem st1.diag st1.off st1.endIdx eps
  { diag := st1.diag, off := sub.2.2, q := st1.q, start := sub.1, endIdx := sub.2.1 }

/-- Embedding of `try_new`'s `while` loop (lines 76-155) with the global
iteration counter `niter` and the cap `max_niter`: `some none` models the
`return None` on reaching the cap, `some (some (q, diag))` models falling
out of the loop; the outer `none` only signals modelled-fuel exhaustion
and is never produced for the inputs used below. -/
def loopGo (eps : ℝ) (max_niter : ℕ) : ℕ → ℕ → LoopSt → Option (Option (List (List ℝ) × List ℝ))
  | 0, _, _ => none
  | (fuel + 1), niter, st =>
    if st.endIdx = st.start then some (some (st.q, st.diag))
    else
      let st1 := driverStep eps st
      let niter1 := niter + 1
      if niter1 = max_niter then some none
      else loopGo eps max_niter fuel niter1 st1

/-- Embedding of `try_new` (lines 49-165) from the unpacked tridiagonal
form onward: the tridiagonalization itself is external (out of scope per
the spec), so the function takes the unpacked `(q, diag, off_diag)`
together with the already-computed normalization factor `m_amax` by which
the final diagonal is rescaled. `dim == 1` returns immediately; otherwise
the initial window is delimited and the loop runs. -/
def try_new_tridiag (fuel : ℕ) (q : List (List ℝ)) (diag off : List ℝ)
    (m_amax : ℝ) (eps : ℝ) (max_niter : ℕ) :
    Option (Option (List (List ℝ) × List ℝ)) :=
  let dim := diag.length
  if dim = 1 then some (some (q, diag.map (· * m_amax)))
  else
    let sub := delimit_subproblem diag off (dim - 1) eps
    let st : LoopSt :=
      { diag := diag, off := sub.2.2, q := q, start := sub.1, endIdx := sub.2.1 }
    match loopGo eps max_niter fuel 0 st with
    | none => none
    | some none => some none
    | some (some (q1, diag1)) => some (some (q1, diag1.map (· * m_amax)))

theorem getD_set_self (l : List ℝ) (i : ℕ) (a d : ℝ) (h : i < l.length) :
    (l.set i a).getD i d = a := by
  simp [List.getD_eq_getElem?_getD, List.getElem?_set_eq_of_lt a h]

/-- C10: the 2x2 eigenvalue routine never fails on the symmetric block
built in the 2-element-window branch (lines 128-131): both off-diagonal
arguments are the same entry `off_diag[start]`, so the
characteristic-polynomial discriminant `b * b + ((a - c)/2)²` is
nonnegative and the closed form always produces (real) eigenvalues; the
`unwrap` therefore never panics. -/
theorem eigenvalues2_symmetric_some (a b c : ℝ) :
    (eigenvalues2 a b b c).isSome = true := by
  simp only [eigenvalues2]
  have h : (0 : ℝ) ≤ b * b + (a - c) * (1 / 2) * ((a - c) * (1 / 2)) :=
    add_nonneg (mul_self_nonneg b) (mul_self_nonneg _)
  rw [if_pos h]
  rfl

theorem dispatch_endIdx_le (eps : ℝ) (st : LoopSt) :
    (dispatch eps st).endIdx ≤ st.endIdx := by
  simp only [dispatch]
  split
  · dsimp only
    split
    · exact Nat.sub_le _ _
    · exact Nat.le_refl _
  · split
    · exact Nat.sub_le _ _
    · exact Nat.le_refl _

/-- C2: the active window never grows. `delimit_subproblem` returns a
trailing bound no larger than the `end` it was given; the dispatch
branches only ever decrement `end`; hence across every iteration of the
driver loop (`driverStep`: dispatch then re-delimit) the new `end` is at
most the old one — the window shrinks monotonically until
`start == end` terminates the loop. -/
theorem window_never_grows :
    (∀ (diag off : List ℝ) (e : ℕ) (eps : ℝ),
      (delimit_subproblem diag off e eps).2.1 ≤ e) ∧
    (∀ (eps : ℝ) (st : LoopSt), (dispatch eps st).endIdx ≤ st.endIdx) ∧
    (∀ (eps : ℝ) (st : LoopSt), (driverStep eps st).endIdx ≤ st.endIdx) := by
  refine ⟨delimit_subproblem_trailing_le, dispatch_endIdx_le, ?_⟩
  intro eps st
  have h2 := delimit_subproblem_trailing_le (dispatch eps st).diag (dispatch eps st).off
    (dispatch eps st).endIdx eps
  exact le_trans h2 (dispatch_endIdx_le eps st)

/-- C4: in each step of the QR sweep where a rotation is constructed
(`cancelY` succeeds on the seed, `rot = (cos, sin)`), the updated entries
satisfy exactly (with `mii, mjj, mij` the old values at `i`, `j = i + 1`):
`diag[i] = cc*mii + ss*mjj - b`, `diag[j] = ss*mii + cc*mjj + b`,
`off_diag[i] = cs*(mii - mjj) + mij*(cc - ss)` for `cc = cos²`,
`ss = sin²`, `cs = cos*sin`, `b = 2*cs*mij`; and when `i` is not the
second-to-last window index (`i ≠ n - 1`) the next seed is
`v = (off_diag[i]_new, -sin * off_diag[i+1]_old)` and `off_diag[i+1]` is
scaled by `cos`. The index bounds hold at every call site in the driver. -/
theorem sweep_rotation_update (start n i : ℕ) (st : SweepSt) (rot : ℝ × ℝ) (norm : ℝ)
    (hrot : cancelY st.v = some (rot, norm))
    (hdi : i + 1 < st.diag.length) (hoi : i < st.off.length) :
    ∃ st1, sweepBody start n i st = some st1 ∧
      st1.diag.getD i 0 =
        rot.1 * rot.1 * st.diag.getD i 0 + rot.2 * rot.2 * st.diag.getD (i + 1) 0 -
          rot.1 * rot.2 * 2 * st.off.getD i 0 ∧
      st1.diag.getD (i + 1) 0 =
        rot.2 * rot.2 * st.diag.getD i 0 + rot.1 * rot.1 * st.diag.getD (i + 1) 0 +
          rot.1 * rot.2 * 2 * st.off.getD i 0 ∧
      st1.off.getD i 0 =
        rot.1 * rot.2 * (st.diag.getD i 0 - st.diag.getD (i + 1) 0) +
          st.off.getD i 0 * (rot.1 * rot.1 - rot.2 * rot.2) ∧
      (i ≠ n - 1 →
        st1.v = (rot.1 * rot.2 * (st.diag.getD i 0 - st.diag.getD (i + 1) 0) +
            st.off.getD i 0 * (rot.1 * rot.1 - rot.2 * rot.2),
          -rot.2 * st.off.getD (i + 1) 0) ∧
        (i + 1 < st.off.length →
          st1.off.getD (i + 1) 0 = st.off.getD (i + 1) 0 * rot.1)) := by
  have hoff0i : (if start < i then st.off.set (i - 1) norm else st.off).getD i 0
      = st.off.getD i 0 := by
    rcases Nat.lt_or_ge start i with hsi | hsi
    · rw [if_pos hsi]
      exact getD_set_ne _ _ _ _ _ (by omega)
    · rw [if_neg (Nat.not_lt.mpr hsi)]
  have hoff0i1 : (if start < i then st.off.set (i - 1) norm else st.off).getD (i + 1) 0
      = st.off.getD (i + 1) 0 := by
    rcases Nat.lt_or_ge start i with hsi | hsi
    · rw [if_pos hsi]
      exact getD_set_ne _ _ _ _ _ (by omega)
    · rw [if_neg (Nat.not_lt.mpr hsi)]
  have hlen0 : (if start < i then st.off.set (i - 1) norm else st.off).length
      = st.off.length := by
    rcases Nat.lt_or_ge start i with hsi | hsi
    · rw [if_pos hsi]
      exact List.length_set _ _ _
    · rw [if_neg (Nat.not_lt.mpr hsi)]
  simp only [sweepBody, hrot]
  refine ⟨_, rfl, ?_⟩
  dsimp only
  have hdiagi : ((st.diag.set i
        (rot.1 * rot.1 * st.diag.getD i 0 + rot.2 * rot.2 * st.diag.getD (i + 1) 0 -
          rot.1 * rot.2 * 2 *
            (if start < i then st.off.set (i - 1) norm else st.off).getD i 0)).set (i + 1)
        (rot.2 * rot.2 * st.diag.getD i 0 + rot.1 * rot.1 * st.diag.getD (i + 1) 0 +
          rot.1 * rot.2 * 2 *
            (if start < i then st.off.set (i - 1) norm else st.off).getD i 0)).getD i 0 =
      rot.1 * rot.1 * st.diag.getD i 0 + rot.2 * rot.2 * st.diag.getD (i + 1) 0 -
        rot.1 * rot.2 * 2 * st.off.getD i 0 := by
    rw [getD_set_ne _ _ _ _ _ (by omega), getD_set_self _ _ _ _ (by omega), hoff0i]
  have hdiagj : ((st.diag.set i
        (rot.1 * rot.1 * st.diag.getD i 0 + rot.2 * rot.2 * st.diag.getD (i + 1) 0 -
          rot.1 * rot.2 * 2 *
            (if start < i then st.off.set (i - 1) norm else st.off).getD i 0)).set (i + 1)
        (rot.2 * rot.2 * st.diag.getD i 0 + rot.1 * rot.1 * st.diag.getD (i + 1) 0 +
          rot.1 * rot.2 * 2 *
            (if start < i then st.off.set (i - 1) norm else st.off).getD i 0)).getD (i + 1) 0 =
      rot.2 * rot.2 * st.diag.getD i 0 + rot.1 * rot.1 * st.diag.getD (i + 1) 0 +
        rot.1 * rot.2 * 2 * st.off.getD i 0 := by
    rw [getD_set_self _ _ _ _ (by simp; omega), hoff0i]
  by_cases hin : i ≠ n - 1
  · simp only [if_pos hin]
    refine ⟨hdiagi, hdiagj, ?_, ?_⟩
    · rw [getD_set_ne _ _ _ _ _ (by omega), getD_set_self _ _ _ _ (by omega), hoff0i]
    · intro _
      constructor
      · rw [getD_set_self _ _ _ _ (by rw [hlen0]; omega), hoff0i,
          getD_set_ne _ _ _ _ _ (by omega), hoff0i1]
      · intro hi1
        rw [getD_set_self _ _ _ _ (by simp [hlen0]; omega),
          getD_set_ne _ _ _ _ _ (by omega), hoff0i1]
  · simp only [if_neg hin]
    refine ⟨hdiagi, hdiagj, ?_, fun h => absurd h hin⟩
    rw [getD_set_self _ _ _ _ (by rw [hlen0]; omega), hoff0i]

/-- Witness for C4: a concrete sweep step at `i = 0` on
`diag = [1, 2, 3]`, `off = [4, 5]`, seed `v = (3, 4)`; the rotation is
`(3/5, -4/5)` with norm `5`, and the updated `diag[0]` is
`cc*mii + ss*mjj - b = 9/25*1 + 16/25*2 + 96/25 = 137/25`. -/
theorem sweep_rotation_update_witness :
    cancelY ((3 : ℝ), 4) = some ((3 / 5, -(4 / 5)), 5) ∧
    ∃ st1, sweepBody 0 3 0 ⟨[1, 2, 3], [4, 5], [], (3, 4)⟩ = some st1 ∧
      st1.diag.getD 0 0 = 137 / 25 := by
  have h25 : Real.sqrt (25 : ℝ) = 5 := by
    rw [show (25 : ℝ) = 5 ^ 2 by norm_num]
    exact Real.sqrt_sq (by norm_num)
  have hcy : cancelY ((3 : ℝ), 4) = some ((3 / 5, -(4 / 5)), 5) := by
    simp only [cancelY]
    norm_num [h25]
  refine ⟨hcy, ?_⟩
  obtain ⟨st1, heq, h1, h2, h3, h4⟩ :=
    sweep_rotation_update 0 3 0 ⟨[1, 2, 3], [4, 5], [], (3, 4)⟩ (3 / 5, -(4 / 5)) 5 hcy
      (by simp) (by simp)
  refine ⟨st1, heq, ?_⟩
  rw [h1]
  norm_num

/-- C5: whenever the driver dispatches a 2-element active window
(`end = start + 1`), after the dispatch `diag[start]` and `diag[start+1]`
hold the two closed-form eigenvalues of the 2x2 symmetric block, in the
order produced by the closed-form routine (no sort); a rotation is applied
to eigenvector columns `start, start + 1` of `q` exactly when the basis
vector `(eigval[0] - diag[start+1], off_diag[start])` normalizes above the
tolerance `eps` (otherwise `q` is untouched); and `end` decreases by
exactly one in every case. -/
theorem two_by_two_dispatch (eps : ℝ) (st : LoopSt)
    (h : st.endIdx = st.start + 1) (hlen : st.start + 1 < st.diag.length) :
    (dispatch eps st).diag.getD st.start 0 =
      ((eigenvalues2 (st.diag.getD st.start 0) (st.off.getD st.start 0)
        (st.off.getD st.start 0) (st.diag.getD (st.start + 1) 0)).getD (0, 0)).1 ∧
    (dispatch eps st).diag.getD (st.start + 1) 0 =
      ((eigenvalues2 (st.diag.getD st.start 0) (st.off.getD st.start 0)
        (st.off.getD st.start 0) (st.diag.getD (st.start + 1) 0)).getD (0, 0)).2 ∧
    (dispatch eps st).endIdx + 1 = st.endIdx ∧
    (tryNormalize (((eigenvalues2 (st.diag.getD st.start 0) (st.off.getD st.start 0)
          (st.off.getD st.start 0) (st.diag.getD (st.start + 1) 0)).getD (0, 0)).1 -
        st.diag.getD (st.start + 1) 0, st.off.getD st.start 0) eps = none →
      (dispatch eps st).q = st.q) ∧
    (∀ u, tryNormalize (((eigenvalues2 (st.diag.getD st.start 0) (st.off.getD st.start 0)
          (st.off.getD st.start 0) (st.diag.getD (st.start + 1) 0)).getD (0, 0)).1 -
        st.diag.getD (st.start + 1) 0, st.off.getD st.start 0) eps = some u →
      (dispatch eps st).q = rotateCols u.1 u.2 st.start st.q) := by
  have hgt : ¬ (2 < st.endIdx - st.start + 1) := by omega
  have heq2 : st.endIdx - st.start + 1 = 2 := by omega
  simp only [dispatch, if_neg hgt, if_pos heq2]
  refine ⟨?_, ?_, by omega, ?_, ?_⟩
  · rw [getD_set_ne _ _ _ _ _ (by omega), getD_set_self _ _ _ _ (by omega)]
  · rw [getD_set_self _ _ _ _ (by simp; omega)]
  · intro hn
    rw [hn]
  · intro u hu
    rw [hu]

/-- Witness for C5: the 2-element window `diag = [0, 0]`, `off = [1]`,
`start = 0`, `end = 1`, `eps = 0`: the closed-form eigenvalues are
`(1, -1)`, so `diag[0]` becomes `1` and the window deflates to `end = 0`. -/
theorem two_by_two_dispatch_witness :
    (⟨[0, 0], [1], [[1, 0], [0, 1]], 0, 1⟩ : LoopSt).endIdx =
      (⟨[0, 0], [1], [[1, 0], [0, 1]], 0, 1⟩ : LoopSt).start + 1 ∧
    (dispatch 0 ⟨[0, 0], [1], [[1, 0], [0, 1]], 0, 1⟩).diag.getD 0 0 = 1 ∧
    (dispatch 0 ⟨[0, 0], [1], [[1, 0], [0, 1]], 0, 1⟩).endIdx + 1 = 1 := by
  obtain ⟨h1, h2, h3, h4, h5⟩ :=
    two_by_two_dispatch 0 ⟨[0, 0], [1], [[1, 0], [0, 1]], 0, 1⟩ rfl (by simp)
  refine ⟨rfl, ?_, h3⟩
  rw [h1]
  norm_num [eigenvalues2, Real.sqrt_one]

/-- C1 (code bug evidence): the tridiagonal form `diag = [0, 0]`,
`off_diag = [1]` (the symmetric matrix `[[0, 1], [1, 0]]`, `m_amax = 1`)
is fully deflated after exactly `K = 1` dispatch iteration, yet
`try_new` with `max_niter = 1 = K` returns `None` (modelled `some none`):
the loop increments `niter` to the cap after the dispatch that already
fully deflated the window and bails out before re-testing the loop
condition. With `max_niter = 2 > K` the same input yields a valid
decomposition, and the claim's `max_niter ≥ K` boundary case is exactly
where the code and its own documentation ("if this number of iteration
is exceeded, `None` is returned") disagree. -/
theorem try_new_cap_equal_K_returns_none :
    try_new_tridiag 4 [[1, 0], [0, 1]] [0, 0] [1] 1 0 1 = some none ∧
    (∃ r, try_new_tridiag 4 [[1, 0], [0, 1]] [0, 0] [1] 1 0 2 = some (some r)) := by
  have hdel : delimit_subproblem [(0 : ℝ), 0] [1] 1 0 = (0, 1, [1]) := by
    norm_num [delimit_subproblem, delimitN, delimitStart]
  have hde : (dispatch 0 ⟨[(0 : ℝ), 0], [1], [[1, 0], [0, 1]], 0, 1⟩).endIdx = 0 := by
    norm_num [dispatch]
  have hend : (driverStep 0 ⟨[(0 : ℝ), 0], [1], [[1, 0], [0, 1]], 0, 1⟩).endIdx = 0 := by
    show (delimit_subproblem _ _ _ _).2.1 = 0
    rw [hde]
    norm_num [delimit_subproblem, delimitN]
  have hstart : (driverStep 0 ⟨[(0 : ℝ), 0], [1], [[1, 0], [0, 1]], 0, 1⟩).start = 0 := by
    show (delimit_subproblem _ _ _ _).1 = 0
    rw [hde]
    norm_num [delimit_subproblem, delimitN]
  constructor
  · simp only [try_new_tridiag]
    norm_num [hdel, loopGo]
  · simp only [try_new_tridiag]
    norm_num [hdel, loopGo, hend, hstart]

open Matrix

/-- Embedding of the result structure `SymmetricEigen` (lines 15-23):
the eigenvector matrix and the unsorted eigenvalues. -/
structure SymmetricEigen (n : ℕ) where
  eigenvectors : Matrix (Fin n) (Fin n) ℝ
  eigenvalues : Fin n → ℝ

/-- Embedding of `recompose` (lines 210-218): clone the eigenvector
matrix, scale its column `i` by `eigenvalues[i]` (the `for` loop with
`mul_assign`), transpose the clone in place, and left-multiply by the
eigenvector matrix. The receiver is an immutable borrow (`&self`), so the
decomposition itself cannot be mutated. -/
def recompose {n : ℕ} (e : SymmetricEigen n) : Matrix (Fin n) (Fin n) ℝ :=
  let u_t := Matrix.of fun r c => e.eigenvectors r c * e.eigenvalues c
  e.eigenvectors * u_tᵀ

/-- Modelled from the spec: the recomposition as the spec phrases it,
`eigenvectors · diag(eigenvalues) · eigenvectorsᵗ`, for comparison with
the imperative column-scaling implementation of `recompose`. -/
def recompose_spec_formula {n : ℕ} (e : SymmetricEigen n) : Matrix (Fin n) (Fin n) ℝ :=
  e.eigenvectors * Matrix.diagonal e.eigenvalues * e.eigenvectorsᵀ

/-- C8: `recompose` is a pure function of the decomposition's two fields —
it equals the closed formula `eigenvectors · diag(eigenvalues) ·
eigenvectorsᵗ` of those fields, so it performs no hidden mutation — and
calling it twice on the same unmodified result yields identical
matrices. -/
theorem recompose_pure_idempotent {n : ℕ} (e : SymmetricEigen n) :
    recompose e = recompose e ∧ recompose e = recompose_spec_formula e := by
  have hut : (Matrix.of fun r c => e.eigenvectors r c * e.eigenvalues c)
      = e.eigenvectors * Matrix.diagonal e.eigenvalues := by
    ext r c
    simp [Matrix.mul_diagonal]
  refine ⟨rfl, ?_⟩
  show e.eigenvectors * (Matrix.of fun r c => e.eigenvectors r c * e.eigenvalues c)ᵀ = _
  rw [hut, Matrix.transpose_mul, Matrix.diagonal_transpose, recompose_spec_formula,
    ← Matrix.mul_assoc]
